import Mathlib

/-!
Verification of the license-verifier core: URL normalization/validation
(`validate_and_map_url`), the request pipeline (`verify_license`), and the
line-diff renderer.  Python strings are embedded as lists of characters,
Python's string primitives (`lower`, `endswith`, `replace`, substring
containment, `splitlines`) as executable Lean functions on those lists.
-/

deriving instance DecidableEq for Except

namespace LicenseVeryfire

/-- A Python string, embedded as its list of characters. -/
abbrev Str := List Char

/-- Python `s.lower()` (ASCII case folding, which is all the program uses). -/
def pyLower (s : Str) : Str := s.map Char.toLower

/-- `listStartsWith s p` holds when `p` is a prefix of `s`
(Python `s.startswith(p)`). -/
def listStartsWith : Str → Str → Bool
  | _, [] => true
  | [], _ :: _ => false
  | c :: s, p :: ps => c == p && listStartsWith s ps

/-- Python `s.endswith(p)`. -/
def strEndsWith (s p : Str) : Bool := listStartsWith s.reverse p.reverse

/-- Python `p in s`: `p` occurs as a contiguous substring of `s`. -/
def containsSub : Str → Str → Bool
  | [], pat => listStartsWith [] pat
  | s@(_ :: rest), pat => listStartsWith s pat || containsSub rest pat

/-- Worker for `strReplace`: the fuel argument (instantiated with the length
of the scanned string, which bounds the number of scan steps) makes the
left-to-right scan structurally recursive. -/
def strReplaceF (pat rep : Str) : Nat → Str → Str
  | 0, s => s
  | _ + 1, [] => []
  | n + 1, c :: rest =>
    if pat ≠ [] ∧ listStartsWith (c :: rest) pat = true then
      rep ++ strReplaceF pat rep n ((c :: rest).drop pat.length)
    else
      c :: strReplaceF pat rep n rest

/-- Python `s.replace(pat, rep)` for a nonempty pattern: scan left to right,
replacing each (non-overlapping) occurrence of `pat` by `rep`. -/
def strReplace (pat rep s : Str) : Str := strReplaceF pat rep s.length s

/-- Python `s.splitlines()` (newline-separated lines, no trailing empty line
for a trailing newline, `[]` for the empty string). -/
def splitlines : Str → List Str
  | [] => []
  | c :: s =>
    if c = '\n' then [] :: splitlines s
    else
      match splitlines s with
      | [] => [[c]]
      | l :: ls => (c :: l) :: ls

/-- Python truthiness of the optional `manual_license` form field:
`None` and the empty string are falsy. -/
def truthy : Option Str → Bool
  | none => false
  | some s => !s.isEmpty

/-! ## URL Normalizer (`validate_and_map_url`, src/main.py lines 148-164) -/

/-- `valid_patterns` from the source. -/
def valid_patterns : List Str :=
  ["LICENSE".toList, "LICENCE".toList, "license".toList, "licence".toList]

/-- `valid_extensions` from the source (extensions or no extension). -/
def valid_extensions : List Str := [".txt".toList, ".md".toList, []]

/-- The source's guard
`any(url.lower().endswith(pattern.lower() + ext) for pattern in valid_patterns for ext in valid_extensions)`. -/
def licenseSuffixOk (url : Str) : Bool :=
  valid_patterns.any fun pat =>
    valid_extensions.any fun ext => strEndsWith (pyLower url) (pyLower pat ++ ext)

/-- The error raised by `validate_and_map_url`
(HTTP 400, "The URL must point to a valid LICENSE file..."). -/
inductive UrlError where
  | invalidLicenseURL
deriving DecidableEq

/-- `validate_and_map_url` from the source: reject unless the lowercased URL
ends in a license filename pattern; then, if the URL contains `github.com`,
replace it by `raw.githubusercontent.com` and delete `blob/`. -/
def validate_and_map_url (url : Str) : Except UrlError Str :=
  if licenseSuffixOk url then
    if containsSub url ("github.com".toList) then
      Except.ok (strReplace ("blob/".toList) []
        (strReplace ("github.com".toList) ("raw.githubusercontent.com".toList) url))
    else
      Except.ok url
  else
    Except.error UrlError.invalidLicenseURL

/-! ## Request pipeline (`verify_license`, src/main.py lines 82-130) -/

/-- The error kinds `verify_license` can raise (each is an HTTP 400
`HTTPException` in the source, distinguished by its detail message). -/
inductive ErrKind where
  | invalidLicenseURL
  | fetchFailed
  | unknownManualLicense (name : Str)
  | noMatch
  | referenceNotFound (id : Str)
deriving DecidableEq

/-- How the reference license was chosen (drives the result page's
`manual_message`, src/main.py line 130). -/
inductive Method where
  | manual (name : Str)
  | auto (id : Str)
deriving DecidableEq

/-- The environment of a request: the corpus directory's files (name,
content), the external HTTP fetch (`none` models a `RequestException` or a
non-success status), and the `spdx_matcher.analyse_license_text` detector
(the keys of `licenses_detected["licenses"]`, in iteration order). -/
structure Env where
  files : List (Str × Str)
  fetch : Str → Option Str
  detect : Str → List Str

/-- File lookup in the licenses directory: `os.path.exists` plus `open`/`read`
for the named file. -/
def lookupFile (env : Env) (name : Str) : Option Str :=
  (env.files.find? fun p => p.1 == name).map Prod.snd

/-- The data flowing into the response page: the chosen reference (method and
text) and the fetched text, which are the two sides of the rendered diff. -/
structure VerifyResult where
  method : Method
  reference : Str
  fetched : Str
deriving DecidableEq

/-- `verify_license` from the source.  The second component of the result is
the trace of network fetches attempted, in order. -/
def verify_license (env : Env) (license_url : Str) (manual_license : Option Str) :
    Except ErrKind VerifyResult × List Str :=
  match validate_and_map_url license_url with
  | Except.error _ => (Except.error ErrKind.invalidLicenseURL, [])
  | Except.ok url =>
    match env.fetch url with
    | none => (Except.error ErrKind.fetchFailed, [url])
    | some fetched =>
      if truthy manual_license then
        let m := manual_license.getD []
        match lookupFile env m with
        | none => (Except.error (ErrKind.unknownManualLicense m), [url])
        | some ref => (Except.ok ⟨Method.manual m, ref, fetched⟩, [url])
      else
        match env.detect fetched with
        | [] => (Except.error ErrKind.noMatch, [url])
        | id :: _ =>
          match lookupFile env (id ++ ".txt".toList) with
          | none => (Except.error (ErrKind.referenceNotFound id), [url])
          | some ref => (Except.ok ⟨Method.auto id, ref, fetched⟩, [url])

/-! ## Diff Renderer -/

/-- Modelled from the spec: the source delegates line diffing to Python's
standard-library `difflib` (`HtmlDiff().make_table`, an external library whose
code is not part of this repository), and the spec replaces that library by a
transport-agnostic `DiffReport`.  A span is tagged `Equal`, `Inserted`,
`Deleted` or `Replaced` and carries its contributing lines from the reference
and fetched sides. -/
inductive DiffSpan (α : Type) where
  | equal (lines : List α)
  | inserted (lines : List α)
  | deleted (lines : List α)
  | replaced (refLines fetLines : List α)
deriving DecidableEq

/-- The lines a span contributes on the reference side. -/
def DiffSpan.refContrib : DiffSpan α → List α
  | DiffSpan.equal ls => ls
  | DiffSpan.inserted _ => []
  | DiffSpan.deleted ls => ls
  | DiffSpan.replaced r _ => r

/-- The lines a span contributes on the fetched side. -/
def DiffSpan.fetContrib : DiffSpan α → List α
  | DiffSpan.equal ls => ls
  | DiffSpan.inserted ls => ls
  | DiffSpan.deleted _ => []
  | DiffSpan.replaced _ f => f

/-- Walking a report in order, reading the reference-side contributions. -/
def refSide (spans : List (DiffSpan α)) : List α :=
  (spans.map DiffSpan.refContrib).flatten

/-- Walking a report in order, reading the fetched-side contributions. -/
def fetchedSide (spans : List (DiffSpan α)) : List α :=
  (spans.map DiffSpan.fetContrib).flatten

/-- Modelled from the spec: a longest common subsequence of two line
sequences (the classic LCS recursion the spec's "minimal-edit-distance line
alignment" is based on). -/
def lcs [DecidableEq α] : List α → List α → List α
  | [], _ => []
  | _ :: _, [] => []
  | a :: as, b :: bs =>
    if a = b then a :: lcs as bs
    else
      let l1 := lcs (a :: as) bs
      let l2 := lcs as (b :: bs)
      if l2.length ≤ l1.length then l1 else l2
termination_by a b => a.length + b.length
decreasing_by
  all_goals simp
  omega

/-- Split a list at the first occurrence of `x`: `breakAt x l = (p, r)` with
`l = p ++ x :: r` whenever `x ∈ l`. -/
def breakAt [DecidableEq α] (x : α) : List α → List α × List α
  | [] => ([], [])
  | y :: ys =>
    if y = x then ([], ys)
    else
      let pr := breakAt x ys
      (y :: pr.1, pr.2)

/-- The change span (if any) for a block of reference-only lines `d` and
fetched-only lines `i` sitting between two common lines. -/
def mkChange (d i : List α) : List (DiffSpan α) :=
  if d.isEmpty then
    if i.isEmpty then [] else [DiffSpan.inserted i]
  else if i.isEmpty then [DiffSpan.deleted d]
  else [DiffSpan.replaced d i]

/-- Modelled from the spec: walk the common subsequence `c` through the
reference lines `a` and fetched lines `b`, emitting change spans for the
blocks between common lines and an `Equal` span for each common line. -/
def align [DecidableEq α] : List α → List α → List α → List (DiffSpan α)
  | [], a, b => mkChange a b
  | x :: c, a, b =>
    let pa := breakAt x a
    let pb := breakAt x b
    mkChange pa.1 pb.1 ++ DiffSpan.equal [x] :: align c pa.2 pb.2

/-- Modelled from the spec: `compare(reference, fetched)` — the structured,
line-aligned comparison of two texts (an LCS-based line diff). -/
def compare (reference fetched : Str) : List (DiffSpan Str) :=
  align (lcs (splitlines reference) (splitlines fetched))
    (splitlines reference) (splitlines fetched)

/-! ## Spec-side definitions (used to state claims against the code) -/

/-- The six license filenames recognized per the spec: case-insensitive base
name `LICENSE`/`LICENCE` with extension none, `.txt` or `.md` (lowercased). -/
def suffixes6 : List Str :=
  ["license.txt".toList, "license.md".toList, "license".toList,
   "licence.txt".toList, "licence.md".toList, "licence".toList]

/-- The final path segment of a URL: everything after the last `/`
(the whole URL if it has no `/`). -/
def finalSegment (u : Str) : Str := (u.reverse.takeWhile fun c => c ≠ '/').reverse

/-- The remainder of `s` after the first occurrence of `pat`
(`[]` if `pat` does not occur). -/
def dropAfterFirst (pat : Str) : Str → Str
  | [] => []
  | c :: rest =>
    if listStartsWith (c :: rest) pat then (c :: rest).drop pat.length
    else dropAfterFirst pat rest

/-- The host of a URL: the segment between `://` and the next `/`. -/
def specHost (u : Str) : Str :=
  (dropAfterFirst ("://".toList) u).takeWhile fun c => c ≠ '/'

/-- `joinWith sep parts` concatenates `parts` with `sep` between consecutive
parts (so `s.replace(pat, rep)` turns a `pat`-join into a `rep`-join). -/
def joinWith (sep : Str) : List Str → Str
  | [] => []
  | [p] => p
  | p :: q :: ps => p ++ sep ++ joinWith sep (q :: ps)

/-! ## Lemmas about the string primitives -/

theorem listStartsWith_iff {s p : Str} :
    listStartsWith s p = true ↔ ∃ t, s = p ++ t := by
  induction p generalizing s with
  | nil => simp [listStartsWith]
  | cons q ps ih =>
    cases s with
    | nil => simp [listStartsWith]
    | cons c cr =>
      simp only [listStartsWith, Bool.and_eq_true, beq_iff_eq, ih, List.cons_append,
        List.cons.injEq]
      constructor
      · rintro ⟨rfl, t, rfl⟩
        exact ⟨t, rfl, rfl⟩
      · rintro ⟨t, rfl, rfl⟩
        exact ⟨rfl, t, rfl⟩

theorem listStartsWith_append {s p t : Str} (h : listStartsWith s p = true) :
    listStartsWith (s ++ t) p = true := by
  rcases listStartsWith_iff.mp h with ⟨u, rfl⟩
  exact listStartsWith_iff.mpr ⟨u ++ t, by simp⟩

theorem strEndsWith_iff {s p : Str} :
    strEndsWith s p = true ↔ ∃ l, s = l ++ p := by
  unfold strEndsWith
  rw [listStartsWith_iff]
  constructor
  · rintro ⟨t, ht⟩
    refine ⟨t.reverse, ?_⟩
    have := congrArg List.reverse ht
    simpa using this
  · rintro ⟨l, rfl⟩
    exact ⟨l.reverse, by simp⟩

theorem listStartsWith_drop {s p : Str} (h : listStartsWith s p = true) :
    s = p ++ s.drop p.length := by
  rcases listStartsWith_iff.mp h with ⟨t, rfl⟩
  rw [List.drop_left p t]

/-- The guard of `validate_and_map_url`, characterized: the lowercased URL
ends with one of the six recognized license filename suffixes (the four
patterns times three extensions of the source collapse to six suffixes after
lowercasing). -/
theorem licenseSuffixOk_eq (u : Str) :
    licenseSuffixOk u = suffixes6.any fun suf => strEndsWith (pyLower u) suf := by
  have e1 : pyLower ("LICENSE".toList) ++ (".txt".toList) = ("license.txt".toList) := by decide
  have e2 : pyLower ("LICENSE".toList) ++ (".md".toList) = ("license.md".toList) := by decide
  have e3 : pyLower ("LICENSE".toList) ++ ([] : Str) = ("license".toList) := by decide
  have e4 : pyLower ("LICENCE".toList) ++ (".txt".toList) = ("licence.txt".toList) := by decide
  have e5 : pyLower ("LICENCE".toList) ++ (".md".toList) = ("licence.md".toList) := by decide
  have e6 : pyLower ("LICENCE".toList) ++ ([] : Str) = ("licence".toList) := by decide
  have e7 : pyLower ("license".toList) ++ (".txt".toList) = ("license.txt".toList) := by decide
  have e8 : pyLower ("license".toList) ++ (".md".toList) = ("license.md".toList) := by decide
  have e9 : pyLower ("license".toList) ++ ([] : Str) = ("license".toList) := by decide
  have e10 : pyLower ("licence".toList) ++ (".txt".toList) = ("licence.txt".toList) := by decide
  have e11 : pyLower ("licence".toList) ++ (".md".toList) = ("licence.md".toList) := by decide
  have e12 : pyLower ("licence".toList) ++ ([] : Str) = ("licence".toList) := by decide
  simp only [licenseSuffixOk, suffixes6, valid_patterns, valid_extensions,
    List.any_cons, List.any_nil, e1, e2, e3, e4, e5, e6, e7, e8, e9, e10, e11, e12]
  generalize strEndsWith (pyLower u) ("license.txt".toList) = b1
  generalize strEndsWith (pyLower u) ("license.md".toList) = b2
  generalize strEndsWith (pyLower u) ("license".toList) = b3
  generalize strEndsWith (pyLower u) ("licence.txt".toList) = b4
  generalize strEndsWith (pyLower u) ("licence.md".toList) = b5
  generalize strEndsWith (pyLower u) ("licence".toList) = b6
  revert b1 b2 b3 b4 b5 b6
  decide

theorem licenseSuffixOk_iff {u : Str} :
    licenseSuffixOk u = true ↔
      ∃ suf ∈ suffixes6, strEndsWith (pyLower u) suf = true := by
  rw [licenseSuffixOk_eq]
  simp [List.any_eq_true]

theorem containsSub_nil {pat : Str} (hp : pat ≠ []) : containsSub [] pat = false := by
  cases pat with
  | nil => simp at hp
  | cons q ps => rfl

theorem joinWith_cons_cons (sep p q : Str) (ps : List Str) :
    joinWith sep (p :: q :: ps) = p ++ sep ++ joinWith sep (q :: ps) := rfl

theorem joinWith_cons_head (sep : Str) (c : Char) (p : Str) (ps : List Str) :
    joinWith sep ((c :: p) :: ps) = c :: joinWith sep (p :: ps) := by
  cases ps with
  | nil => rfl
  | cons q qs => simp [joinWith]

theorem joinWith_head_tail (sep p : Str) (ps : List Str) :
    ∃ t, joinWith sep (p :: ps) = p ++ t := by
  cases ps with
  | nil => exact ⟨[], by simp [joinWith]⟩
  | cons q qs => exact ⟨sep ++ joinWith sep (q :: qs), by simp [joinWith]⟩

/-- Correctness of the embedded Python `replace`: the scanned string splits
into pattern-free parts joined by the pattern, and the result is the same
parts joined by the replacement.  This is `replace`'s contract: every
occurrence of the pattern is replaced, scanning left to right. -/
theorem strReplaceF_parts (pat rep : Str) (hp : pat ≠ []) :
    ∀ n s, s.length ≤ n →
      ∃ parts : List Str, parts ≠ [] ∧
        s = joinWith pat parts ∧
        strReplaceF pat rep n s = joinWith rep parts ∧
        ∀ p ∈ parts, containsSub p pat = false := by
  intro n
  induction n with
  | zero =>
    intro s hs
    have hs0 : s = [] := List.length_eq_zero.mp (Nat.le_zero.mp hs)
    subst hs0
    exact ⟨[[]], by simp, rfl, rfl, by
      intro p hmem
      rw [List.mem_singleton.mp hmem]
      exact containsSub_nil hp⟩
  | succ n ih =>
    intro s hs
    cases s with
    | nil =>
      exact ⟨[[]], by simp, rfl, rfl, by
        intro p hmem
        rw [List.mem_singleton.mp hmem]
        exact containsSub_nil hp⟩
    | cons c rest =>
      by_cases hc : listStartsWith (c :: rest) pat = true
      · have hsplit : c :: rest = pat ++ (c :: rest).drop pat.length :=
          listStartsWith_drop hc
        have hlen : ((c :: rest).drop pat.length).length ≤ n := by
          have h1 : (c :: rest).length = pat.length + ((c :: rest).drop pat.length).length := by
            conv_lhs => rw [hsplit]
            simp
          have h2 : 1 ≤ pat.length := List.length_pos.mpr hp
          have h3 : (c :: rest).length ≤ n + 1 := hs
          omega
        obtain ⟨parts, hne, e1, e2, e3⟩ := ih ((c :: rest).drop pat.length) hlen
        cases parts with
        | nil => exact absurd rfl hne
        | cons p0 ps =>
          refine ⟨[] :: p0 :: ps, by simp, ?_, ?_, ?_⟩
          · rw [joinWith_cons_cons]
            simpa using by rw [← e1]; exact hsplit
          · rw [strReplaceF, if_pos ⟨hp, hc⟩, joinWith_cons_cons]
            simpa using e2
          · intro p hmem
            rcases List.mem_cons.mp hmem with h | h
            · rw [h]; exact containsSub_nil hp
            · exact e3 p h
      · have hcond : ¬ (pat ≠ [] ∧ listStartsWith (c :: rest) pat = true) := by
          intro h
          exact hc h.2
        have hlen : rest.length ≤ n := by
          have := hs
          simp only [List.length_cons] at this
          omega
        obtain ⟨parts, hne, e1, e2, e3⟩ := ih rest hlen
        cases parts with
        | nil => exact absurd rfl hne
        | cons p0 ps =>
          refine ⟨(c :: p0) :: ps, by simp, ?_, ?_, ?_⟩
          · rw [joinWith_cons_head, ← e1]
          · rw [strReplaceF, if_neg hcond, joinWith_cons_head, ← e2]
          · intro p hmem
            rcases List.mem_cons.mp hmem with h | h
            · subst h
              have h1 : containsSub p0 pat = false := e3 p0 (List.mem_cons_self p0 ps)
              have h2 : listStartsWith (c :: p0) pat = false := by
                by_contra hcontra
                have hT : listStartsWith (c :: p0) pat = true := by
                  cases hb : listStartsWith (c :: p0) pat
                  · exact absurd hb hcontra
                  · rfl
                obtain ⟨t, ht⟩ := joinWith_head_tail pat p0 ps
                have : listStartsWith (c :: rest) pat = true := by
                  have : c :: rest = (c :: p0) ++ t := by
                    rw [e1, ht]; rfl
                  rw [this]
                  exact listStartsWith_append hT
                exact hc this
              simp [containsSub, h1, h2]
            · exact e3 p (List.mem_cons_of_mem p0 h)

theorem strReplace_parts (pat rep : Str) (hp : pat ≠ []) (s : Str) :
    ∃ parts : List Str, parts ≠ [] ∧ s = joinWith pat parts ∧
      strReplace pat rep s = joinWith rep parts ∧
      ∀ p ∈ parts, containsSub p pat = false :=
  strReplaceF_parts pat rep hp s.length s le_rfl

/-! ## Lemmas about `validate_and_map_url` -/

theorem validate_error_iff {u : Str} :
    validate_and_map_url u = Except.error UrlError.invalidLicenseURL ↔
      licenseSuffixOk u = false := by
  unfold validate_and_map_url
  cases h : licenseSuffixOk u
  · simp [h]
  · simp only [h, if_true]
    split <;> simp

theorem validate_ok_iff {u : Str} :
    (∃ v, validate_and_map_url u = Except.ok v) ↔ licenseSuffixOk u = true := by
  unfold validate_and_map_url
  cases h : licenseSuffixOk u
  · simp [h]
  · simp only [h, if_true]
    split <;> simp

theorem validate_no_github {u : Str} (h1 : licenseSuffixOk u = true)
    (h2 : containsSub u ("github.com".toList) = false) :
    validate_and_map_url u = Except.ok u := by
  unfold validate_and_map_url
  rw [h1, h2]
  rfl

theorem validate_with_github {u : Str} (h1 : licenseSuffixOk u = true)
    (h2 : containsSub u ("github.com".toList) = true) :
    validate_and_map_url u = Except.ok (strReplace ("blob/".toList) []
      (strReplace ("github.com".toList) ("raw.githubusercontent.com".toList) u)) := by
  unfold validate_and_map_url
  rw [h1, h2]
  rfl

/-! ## Lemmas about the diff renderer -/

theorem lcs_sublist_left [DecidableEq α] : ∀ (a b : List α), List.Sublist (lcs a b) a
  | [], _ => by simp [lcs]
  | _ :: _, [] => by simp [lcs]
  | x :: as, y :: bs => by
    rw [lcs]
    split
    · next h =>
      subst h
      exact List.cons_sublist_cons.mpr (lcs_sublist_left as bs)
    · dsimp only
      split
      · exact lcs_sublist_left (x :: as) bs
      · exact (lcs_sublist_left as (y :: bs)).cons x
termination_by a b => a.length + b.length
decreasing_by
  all_goals simp
  omega

theorem lcs_sublist_right [DecidableEq α] : ∀ (a b : List α), List.Sublist (lcs a b) b
  | [], _ => by simp [lcs]
  | _ :: _, [] => by simp [lcs]
  | x :: as, y :: bs => by
    rw [lcs]
    split
    · next h =>
      subst h
      exact List.cons_sublist_cons.mpr (lcs_sublist_right as bs)
    · dsimp only
      split
      · exact (lcs_sublist_right (x :: as) bs).cons y
      · exact lcs_sublist_right as (y :: bs)
termination_by a b => a.length + b.length
decreasing_by
  all_goals simp
  omega

theorem lcs_self [DecidableEq α] : ∀ l : List α, lcs l l = l
  | [] => by simp [lcs]
  | x :: xs => by
    rw [lcs]
    simp [lcs_self xs]

theorem breakAt_eq [DecidableEq α] {x : α} : ∀ {l : List α}, x ∈ l →
    l = (breakAt x l).1 ++ x :: (breakAt x l).2
  | [], h => absurd h (List.not_mem_nil x)
  | y :: ys, h => by
    by_cases hy : y = x
    · subst hy
      simp [breakAt]
    · have hx : x ∈ ys := by
        rcases List.mem_cons.mp h with h' | h'
        · exact absurd h'.symm hy
        · exact h'
      simp only [breakAt, if_neg hy]
      have := breakAt_eq hx
      conv_lhs => rw [this]
      simp

theorem breakAt_sublist [DecidableEq α] {x : α} {c : List α} :
    ∀ {l : List α}, List.Sublist (x :: c) l → List.Sublist c (breakAt x l).2
  | [], h => by cases h
  | y :: ys, h => by
    by_cases hy : y = x
    · subst hy
      simp only [breakAt, if_pos rfl]
      cases h with
      | cons _ h' =>
        exact ((List.sublist_cons_self y c).trans h')
      | cons₂ _ h' => exact h'
    · have h' : List.Sublist (x :: c) ys := by
        cases h with
        | cons _ h' => exact h'
        | cons₂ _ h' => exact absurd rfl hy
      simp only [breakAt, if_neg hy]
      exact breakAt_sublist h'

theorem refSide_append (s t : List (DiffSpan α)) :
    refSide (s ++ t) = refSide s ++ refSide t := by
  simp [refSide]

theorem fetchedSide_append (s t : List (DiffSpan α)) :
    fetchedSide (s ++ t) = fetchedSide s ++ fetchedSide t := by
  simp [fetchedSide]

theorem mkChange_refSide (d i : List α) : refSide (mkChange d i) = d := by
  unfold mkChange
  by_cases hd : d.isEmpty
  · have : d = [] := by simpa [List.isEmpty_iff] using hd
    subst this
    by_cases hi : i.isEmpty <;> simp [hi, refSide, DiffSpan.refContrib]
  · have hd' : d.isEmpty = false := by simpa using hd
    by_cases hi : i.isEmpty <;>
      simp [hd', hi, refSide, DiffSpan.refContrib]

theorem mkChange_fetchedSide (d i : List α) : fetchedSide (mkChange d i) = i := by
  unfold mkChange
  by_cases hi : i.isEmpty
  · have : i = [] := by simpa [List.isEmpty_iff] using hi
    subst this
    by_cases hd : d.isEmpty <;> simp [hd, fetchedSide, DiffSpan.fetContrib]
  · have hi' : i.isEmpty = false := by simpa using hi
    by_cases hd : d.isEmpty
    · have : d = [] := by simpa [List.isEmpty_iff] using hd
      subst this
      simp [hi', fetchedSide, DiffSpan.fetContrib]
    · have hd' : d.isEmpty = false := by simpa using hd
      simp [hd', hi', fetchedSide, DiffSpan.fetContrib]

/-- The heart of the diff round-trip: walking the spans produced by `align`
over a common subsequence reconstructs both line sequences. -/
theorem align_reconstruct [DecidableEq α] :
    ∀ (c a b : List α), List.Sublist c a → List.Sublist c b →
      refSide (align c a b) = a ∧ fetchedSide (align c a b) = b
  | [], a, b, _, _ => by
    simp [align, mkChange_refSide, mkChange_fetchedSide]
  | x :: c, a, b, ha, hb => by
    have hxa : x ∈ a := ha.subset (List.mem_cons_self x c)
    have hxb : x ∈ b := hb.subset (List.mem_cons_self x c)
    have ih := align_reconstruct c (breakAt x a).2 (breakAt x b).2
      (breakAt_sublist ha) (breakAt_sublist hb)
    constructor
    · show refSide (mkChange (breakAt x a).1 (breakAt x b).1 ++
        DiffSpan.equal [x] :: align c (breakAt x a).2 (breakAt x b).2) = a
      rw [refSide_append, mkChange_refSide]
      have : refSide (DiffSpan.equal [x] :: align c (breakAt x a).2 (breakAt x b).2) =
          x :: refSide (align c (breakAt x a).2 (breakAt x b).2) := by
        simp [refSide, DiffSpan.refContrib]
      rw [this, ih.1]
      exact (breakAt_eq hxa).symm
    · show fetchedSide (mkChange (breakAt x a).1 (breakAt x b).1 ++
        DiffSpan.equal [x] :: align c (breakAt x a).2 (breakAt x b).2) = b
      rw [fetchedSide_append, mkChange_fetchedSide]
      have : fetchedSide (DiffSpan.equal [x] :: align c (breakAt x a).2 (breakAt x b).2) =
          x :: fetchedSide (align c (breakAt x a).2 (breakAt x b).2) := by
        simp [fetchedSide, DiffSpan.fetContrib]
      rw [this, ih.2]
      exact (breakAt_eq hxb).symm

/-- Diffing a line sequence against itself aligns every line with itself. -/
theorem align_self [DecidableEq α] : ∀ l : List α,
    align l l l = l.map fun x => DiffSpan.equal [x]
  | [] => by simp [align, mkChange]
  | x :: xs => by
    show mkChange (breakAt x (x :: xs)).1 (breakAt x (x :: xs)).1 ++
      DiffSpan.equal [x] :: align xs (breakAt x (x :: xs)).2 (breakAt x (x :: xs)).2 =
      (x :: xs).map fun y => DiffSpan.equal [y]
    have hb : breakAt x (x :: xs) = ([], xs) := by simp [breakAt]
    rw [hb]
    simp [mkChange, align_self xs]

theorem flatten_map_singleton (l : List α) : (l.map fun x => [x]).flatten = l := by
  induction l with
  | nil => rfl
  | cons x xs ih => simp [ih]

theorem finalSegment_decomp (u : Str) :
    u = (u.reverse.dropWhile fun c => c ≠ '/').reverse ++ finalSegment u := by
  unfold finalSegment
  conv_lhs => rw [← List.reverse_reverse u,
    ← List.takeWhile_append_dropWhile (fun c => c ≠ '/') u.reverse,
    List.reverse_append]

/-! ## The claims -/

/-- C1: for any two texts A and B, walking the spans of `compare A B` in
order reconstructs the lines of A exactly from the reference-side
contributions and the lines of B exactly from the fetched-side
contributions — no lines are dropped or duplicated across spans. -/
theorem C1_diff_roundtrip (A B : Str) :
    refSide (compare A B) = splitlines A ∧ fetchedSide (compare A B) = splitlines B :=
  align_reconstruct (lcs (splitlines A) (splitlines B)) (splitlines A) (splitlines B)
    (lcs_sublist_left _ _) (lcs_sublist_right _ _)

/-- C5: for every text A, `compare A A` yields a report consisting solely of
`Equal` spans, and those spans cover every line of A. -/
theorem C5_diff_identity (A : Str) :
    (∀ sp ∈ compare A A, ∃ ls, sp = DiffSpan.equal ls) ∧
      refSide (compare A A) = splitlines A := by
  have h : compare A A = (splitlines A).map fun x => DiffSpan.equal [x] := by
    unfold compare
    rw [lcs_self, align_self]
  constructor
  · intro sp hsp
    rw [h] at hsp
    rcases List.mem_map.mp hsp with ⟨x, _, rfl⟩
    exact ⟨[x], rfl⟩
  · rw [h]
    unfold refSide
    rw [List.map_map]
    have : (DiffSpan.refContrib ∘ fun x : Str => DiffSpan.equal [x]) = fun x => [x] := by
      funext x
      rfl
    rw [this, flatten_map_singleton]

/-- C2 counterexample: the URL `https://example.com/UNLICENSE` has final path
segment `UNLICENSE`, which is not a recognized license filename
(case-insensitive base name LICENSE/LICENCE with extension empty, .txt or
.md), yet `validate_and_map_url` accepts it — because the source checks a
suffix of the whole URL string, not its final path segment. -/
theorem C2_cex :
    pyLower (finalSegment ("https://example.com/UNLICENSE".toList)) ∉ suffixes6 ∧
      validate_and_map_url ("https://example.com/UNLICENSE".toList) =
        Except.ok ("https://example.com/UNLICENSE".toList) := by
  constructor
  · decide
  · decide

/-- C2 (amended): `validate_and_map_url` fails with `InvalidLicenseURL`
exactly when the lowercased URL does not END with one of the six suffixes
`license`, `licence`, `license.txt`, `licence.txt`, `license.md`,
`licence.md`; in particular every URL whose final path segment is a
recognized license filename succeeds, and a URL ending in the unrelated
filename `README.md` fails. -/
theorem C2_amended (u : Str) :
    (validate_and_map_url u = Except.error UrlError.invalidLicenseURL ↔
      ¬ ∃ suf ∈ suffixes6, ∃ l, pyLower u = l ++ suf) ∧
    (pyLower (finalSegment u) ∈ suffixes6 → ∃ v, validate_and_map_url u = Except.ok v) ∧
    validate_and_map_url ("https://host/repo/README.md".toList) =
      Except.error UrlError.invalidLicenseURL := by
  refine ⟨?_, ?_, by decide⟩
  · rw [validate_error_iff]
    constructor
    · intro hf hex
      rcases hex with ⟨suf, hs, l, hl⟩
      have : licenseSuffixOk u = true :=
        licenseSuffixOk_iff.mpr ⟨suf, hs, strEndsWith_iff.mpr ⟨l, hl⟩⟩
      rw [this] at hf
      cases hf
    · intro hex
      cases hok : licenseSuffixOk u
      · rfl
      · exfalso
        apply hex
        rcases licenseSuffixOk_iff.mp hok with ⟨suf, hs, hend⟩
        rcases strEndsWith_iff.mp hend with ⟨l, hl⟩
        exact ⟨suf, hs, l, hl⟩
  · intro hseg
    apply validate_ok_iff.mpr
    apply licenseSuffixOk_iff.mpr
    refine ⟨pyLower (finalSegment u), hseg, ?_⟩
    apply strEndsWith_iff.mpr
    refine ⟨pyLower ((u.reverse.dropWhile fun c => c ≠ '/').reverse), ?_⟩
    conv_lhs => rw [finalSegment_decomp u]
    exact List.map_append _ _ _

/-- Witness for C2 (amended): a URL whose final segment is `LICENSE`
passes validation. -/
theorem C2_witness :
    ∃ v, validate_and_map_url ("https://github.com/o/r/blob/main/LICENSE".toList) =
      Except.ok v :=
  (C2_amended ("https://github.com/o/r/blob/main/LICENSE".toList)).2.1 (by decide)

/-- C3 counterexample: `https://evil.example/github.com/LICENSE` has host
`evil.example`, not the code-hosting web UI `github.com`, so per the claim
its output should equal the input; but the source rewrites the substring
`github.com` wherever it occurs, so the output differs. -/
theorem C3_cex :
    specHost ("https://evil.example/github.com/LICENSE".toList) ≠ ("github.com".toList) ∧
      validate_and_map_url ("https://evil.example/github.com/LICENSE".toList) ≠
        Except.ok ("https://evil.example/github.com/LICENSE".toList) ∧
      validate_and_map_url ("https://evil.example/github.com/LICENSE".toList) =
        Except.ok ("https://evil.example/raw.githubusercontent.com/LICENSE".toList) := by
  refine ⟨by decide, by decide, by decide⟩

/-- C3 (amended): on a URL that passes validation, the rewrite is keyed on
the substring `github.com` occurring anywhere in the URL (not on the URL's
host): if the substring does not occur the output equals the input (in
particular an already-raw URL passes through unchanged), and the web-UI URL
`https://github.com/o/r/blob/main/LICENSE` is rewritten to the raw-content
URL `https://raw.githubusercontent.com/o/r/main/LICENSE` with no `blob/`
segment. -/
theorem C3_amended (u : Str) :
    (licenseSuffixOk u = true → containsSub u ("github.com".toList) = false →
      validate_and_map_url u = Except.ok u) ∧
    validate_and_map_url ("https://github.com/o/r/blob/main/LICENSE".toList) =
      Except.ok ("https://raw.githubusercontent.com/o/r/main/LICENSE".toList) ∧
    validate_and_map_url ("https://raw.githubusercontent.com/o/r/main/LICENSE".toList) =
      Except.ok ("https://raw.githubusercontent.com/o/r/main/LICENSE".toList) := by
  refine ⟨?_, by decide, by decide⟩
  intro h1 h2
  exact validate_no_github h1 h2

/-- Witness for C3 (amended): a non-GitHub URL passes through unchanged. -/
theorem C3_witness :
    validate_and_map_url ("https://gitlab.com/o/r/LICENSE".toList) =
      Except.ok ("https://gitlab.com/o/r/LICENSE".toList) :=
  (C3_amended ("https://gitlab.com/o/r/LICENSE".toList)).1 (by decide) (by decide)

/-- C10: for every valid URL containing the substring `github.com`, the
rewrite operates on the whole URL string: the URL splits into
`github.com`-free parts joined by `github.com` (at least one occurrence),
every one of those occurrences is replaced by `raw.githubusercontent.com`,
and then every occurrence of `blob/` in the resulting string is deleted
(the result splits into `blob/`-free parts whose plain concatenation is the
output). -/
theorem C10_whole_string (u : Str)
    (h1 : licenseSuffixOk u = true)
    (h2 : containsSub u ("github.com".toList) = true) :
    ∃ parts parts2 : List Str,
      2 ≤ parts.length ∧
      (∀ p ∈ parts, containsSub p ("github.com".toList) = false) ∧
      u = joinWith ("github.com".toList) parts ∧
      (∀ p ∈ parts2, containsSub p ("blob/".toList) = false) ∧
      joinWith ("raw.githubusercontent.com".toList) parts = joinWith ("blob/".toList) parts2 ∧
      validate_and_map_url u = Except.ok (joinWith [] parts2) := by
  obtain ⟨parts, hne, hu, hrep, hfree⟩ :=
    strReplace_parts ("github.com".toList) ("raw.githubusercontent.com".toList) (by decide) u
  obtain ⟨parts2, hne2, hu2, hrep2, hfree2⟩ :=
    strReplace_parts ("blob/".toList) [] (by decide)
      (strReplace ("github.com".toList) ("raw.githubusercontent.com".toList) u)
  refine ⟨parts, parts2, ?_, hfree, hu, hfree2, ?_, ?_⟩
  · match parts, hne with
    | [p], _ =>
      exfalso
      have hup : u = p := by simpa [joinWith] using hu
      have := hfree p (List.mem_singleton.mpr rfl)
      rw [← hup, h2] at this
      cases this
    | p :: q :: ps, _ => simp
  · rw [← hrep, hu2]
  · rw [validate_with_github h1 h2, hrep2]

/-- Witness for C10: the standard GitHub web-UI license URL. -/
theorem C10_witness :
    ∃ parts parts2 : List Str,
      2 ≤ parts.length ∧
      (∀ p ∈ parts, containsSub p ("github.com".toList) = false) ∧
      ("https://github.com/o/r/blob/main/LICENSE".toList) =
        joinWith ("github.com".toList) parts ∧
      (∀ p ∈ parts2, containsSub p ("blob/".toList) = false) ∧
      joinWith ("raw.githubusercontent.com".toList) parts = joinWith ("blob/".toList) parts2 ∧
      validate_and_map_url ("https://github.com/o/r/blob/main/LICENSE".toList) =
        Except.ok (joinWith [] parts2) :=
  C10_whole_string ("https://github.com/o/r/blob/main/LICENSE".toList) (by decide) (by decide)

/-! ## Lemmas about the pipeline -/

theorem truthy_some {m : Str} (hm : m ≠ []) : truthy (some m) = true := by
  cases m with
  | nil => exact absurd rfl hm
  | cons c cs => rfl

theorem append_txt_ne_nil (i : Str) : i ++ (".txt".toList) ≠ [] := by
  cases i <;> simp

/-- After a passing URL check and a successful fetch, a truthy manual
selection resolves by looking up the raw selected name in the corpus
directory. -/
theorem verify_manual_result (env : Env) (lurl u fetched m : Str)
    (hv : validate_and_map_url lurl = Except.ok u)
    (hf : env.fetch u = some fetched)
    (hm : m ≠ []) :
    (verify_license env lurl (some m)).1 =
      match lookupFile env m with
      | none => Except.error (ErrKind.unknownManualLicense m)
      | some ref => Except.ok ⟨Method.manual m, ref, fetched⟩ := by
  simp only [verify_license, hv, hf, truthy_some hm, if_true, Option.getD_some]
  cases lookupFile env m <;> rfl

/-- After a passing URL check and a successful fetch, the auto-detection
path resolves by looking up `<detected-id>.txt` in the corpus directory. -/
theorem verify_auto_result (env : Env) (lurl u fetched i : Str) (rest : List Str)
    (hv : validate_and_map_url lurl = Except.ok u)
    (hf : env.fetch u = some fetched)
    (hd : env.detect fetched = i :: rest) :
    (verify_license env lurl none).1 =
      match lookupFile env (i ++ (".txt".toList)) with
      | none => Except.error (ErrKind.referenceNotFound i)
      | some ref => Except.ok ⟨Method.auto i, ref, fetched⟩ := by
  simp only [verify_license, hv, hf, truthy, Bool.false_eq_true, if_false, hd]
  cases lookupFile env (i ++ (".txt".toList)) <;> rfl

/-- C4 counterexample: with a corpus consisting of the single file
`MIT.txt`, manual selection of the identifier `MIT` fails (the manual lookup
uses the raw selected name), while auto-detection of the same identifier
`MIT` succeeds (the auto lookup appends `.txt`) — the two paths do not use
the same identifier space. -/
theorem C4_cex :
    (verify_license
        ⟨[(("MIT.txt".toList), ("MIT license text".toList))],
          fun _ => some ("fetched text".toList),
          fun _ => [("MIT".toList)]⟩
        ("https://x/LICENSE".toList) (some ("MIT".toList))).1 =
      Except.error (ErrKind.unknownManualLicense ("MIT".toList)) ∧
    (verify_license
        ⟨[(("MIT.txt".toList), ("MIT license text".toList))],
          fun _ => some ("fetched text".toList),
          fun _ => [("MIT".toList)]⟩
        ("https://x/LICENSE".toList) none).1 =
      Except.ok ⟨Method.auto ("MIT".toList), ("MIT license text".toList),
        ("fetched text".toList)⟩ := by
  constructor
  · rfl
  · rfl

/-- C4 (amended): the manual lookup uses the raw selected filename while the
auto lookup appends `.txt` to the detected identifier, so the two paths
agree only up to that suffix: after a passing URL check and a successful
fetch on which detection returns `i`, manual selection of `i ++ ".txt"`
resolves if and only if auto-detection (returning `i`) resolves, and both
resolve exactly when the corpus directory has a file named `i ++ ".txt"`. -/
theorem C4_amended (env : Env) (lurl u fetched i : Str) (rest : List Str)
    (hv : validate_and_map_url lurl = Except.ok u)
    (hf : env.fetch u = some fetched)
    (hd : env.detect fetched = i :: rest) :
    ((∃ r, (verify_license env lurl (some (i ++ (".txt".toList)))).1 = Except.ok r) ↔
      (∃ r, (verify_license env lurl none).1 = Except.ok r)) ∧
    ((∃ r, (verify_license env lurl none).1 = Except.ok r) ↔
      (lookupFile env (i ++ (".txt".toList))).isSome = true) := by
  have hman := verify_manual_result env lurl u fetched (i ++ (".txt".toList)) hv hf
    (append_txt_ne_nil i)
  have haut := verify_auto_result env lurl u fetched i rest hv hf hd
  cases hlk : lookupFile env (i ++ (".txt".toList)) with
  | none =>
    simp only [hlk] at hman haut
    rw [hman, haut]
    constructor
    · simp
    · simp
  | some ref =>
    simp only [hlk] at hman haut
    rw [hman, haut]
    constructor
    · simp
    · simp

/-- Witness for C4 (amended): concrete corpus `[MIT.txt]`, fetch succeeding,
detection returning `MIT`. -/
theorem C4_witness :
    ((∃ r, (verify_license
        ⟨[(("MIT.txt".toList), ("MIT license text".toList))],
          fun _ => some ("fetched text".toList),
          fun _ => [("MIT".toList)]⟩
        ("https://x/LICENSE".toList) (some (("MIT".toList) ++ (".txt".toList)))).1 =
          Except.ok r) ↔
      (∃ r, (verify_license
        ⟨[(("MIT.txt".toList), ("MIT license text".toList))],
          fun _ => some ("fetched text".toList),
          fun _ => [("MIT".toList)]⟩
        ("https://x/LICENSE".toList) none).1 = Except.ok r)) ∧
    ((∃ r, (verify_license
        ⟨[(("MIT.txt".toList), ("MIT license text".toList))],
          fun _ => some ("fetched text".toList),
          fun _ => [("MIT".toList)]⟩
        ("https://x/LICENSE".toList) none).1 = Except.ok r) ↔
      (lookupFile
        ⟨[(("MIT.txt".toList), ("MIT license text".toList))],
          fun _ => some ("fetched text".toList),
          fun _ => [("MIT".toList)]⟩
        (("MIT".toList) ++ (".txt".toList))).isSome = true) :=
  C4_amended
    ⟨[(("MIT.txt".toList), ("MIT license text".toList))],
      fun _ => some ("fetched text".toList),
      fun _ => [("MIT".toList)]⟩
    ("https://x/LICENSE".toList) ("https://x/LICENSE".toList)
    ("fetched text".toList) ("MIT".toList) [] (by decide) rfl rfl

/-- C6: if the URL fails the filename heuristic, the request fails with
`InvalidLicenseURL` and the fetch trace is empty — no network call is ever
attempted, whatever the environment, fetch behavior or manual selection. -/
theorem C6_no_fetch_on_invalid (env : Env) (lurl : Str) (m : Option Str)
    (h : licenseSuffixOk lurl = false) :
    verify_license env lurl m = (Except.error ErrKind.invalidLicenseURL, []) := by
  unfold verify_license
  rw [validate_error_iff.mpr h]

/-- Witness for C6: a URL not ending in a license filename is rejected with
no fetch, for a concrete environment. -/
theorem C6_witness :
    verify_license
      ⟨[], fun _ => some ("anything".toList), fun _ => []⟩
      ("https://github.com/o/r".toList) none =
      (Except.error ErrKind.invalidLicenseURL, []) :=
  C6_no_fetch_on_invalid
    ⟨[], fun _ => some ("anything".toList), fun _ => []⟩
    ("https://github.com/o/r".toList) none (by decide)

/-- C7: a request whose manual license identifier is supplied (non-empty)
but absent from the corpus fails with `UnknownManualLicense` carrying that
identifier — no result (hence no diff) is produced. -/
theorem C7_unknown_manual (env : Env) (lurl u fetched m : Str)
    (hv : validate_and_map_url lurl = Except.ok u)
    (hf : env.fetch u = some fetched)
    (hm : m ≠ [])
    (habsent : lookupFile env m = none) :
    (verify_license env lurl (some m)).1 =
      Except.error (ErrKind.unknownManualLicense m) := by
  have h := verify_manual_result env lurl u fetched m hv hf hm
  simp only [habsent] at h
  exact h

/-- Witness for C7: manual identifier `Apache-2.0` against an empty corpus. -/
theorem C7_witness :
    (verify_license
      ⟨[], fun _ => some ("text".toList), fun _ => []⟩
      ("https://x/LICENSE".toList) (some ("Apache-2.0".toList))).1 =
      Except.error (ErrKind.unknownManualLicense ("Apache-2.0".toList)) :=
  C7_unknown_manual
    ⟨[], fun _ => some ("text".toList), fun _ => []⟩
    ("https://x/LICENSE".toList) ("https://x/LICENSE".toList) ("text".toList)
    ("Apache-2.0".toList) (by decide) rfl (by decide) rfl

/-- C8: in the auto-detection path, even after the matcher detects an
identifier `i`, the request fails with the distinct reference-not-found
error when no corpus file named `i ++ ".txt"` exists; that error differs
from `UnknownManualLicense` (for every carried name) and from `NoMatch`. -/
theorem C8_detected_but_missing (env : Env) (lurl u fetched i : Str) (rest : List Str)
    (hv : validate_and_map_url lurl = Except.ok u)
    (hf : env.fetch u = some fetched)
    (hd : env.detect fetched = i :: rest)
    (habsent : lookupFile env (i ++ (".txt".toList)) = none) :
    (verify_license env lurl none).1 = Except.error (ErrKind.referenceNotFound i) ∧
    (∀ m, ErrKind.referenceNotFound i ≠ ErrKind.unknownManualLicense m) ∧
    ErrKind.referenceNotFound i ≠ ErrKind.noMatch := by
  refine ⟨?_, ?_, ?_⟩
  · have h := verify_auto_result env lurl u fetched i rest hv hf hd
    simp only [habsent] at h
    exact h
  · intro m h
    cases h
  · intro h
    cases h

/-- Witness for C8: detection returns `MIT` but the corpus is empty. -/
theorem C8_witness :
    (verify_license
      ⟨[], fun _ => some ("text".toList), fun _ => [("MIT".toList)]⟩
      ("https://x/LICENSE".toList) none).1 =
      Except.error (ErrKind.referenceNotFound ("MIT".toList)) ∧
    (∀ m, ErrKind.referenceNotFound ("MIT".toList) ≠ ErrKind.unknownManualLicense m) ∧
    ErrKind.referenceNotFound ("MIT".toList) ≠ ErrKind.noMatch :=
  C8_detected_but_missing
    ⟨[], fun _ => some ("text".toList), fun _ => [("MIT".toList)]⟩
    ("https://x/LICENSE".toList) ("https://x/LICENSE".toList) ("text".toList)
    ("MIT".toList) [] (by decide) rfl rfl rfl

/-- C9: a request whose manual license field is present but empty is treated
exactly like a request with no manual selection — the whole observable
outcome (result and fetch trace) coincides, so auto-detection runs and no
empty-identifier lookup or `UnknownManualLicense` error can occur. -/
theorem C9_empty_manual_is_auto (env : Env) (lurl : Str) :
    verify_license env lurl (some []) = verify_license env lurl none := rfl

end LicenseVeryfire
